import Mathlib

/-!
Shallow embedding of the complex feature-generation engine of PCprophet
(`PCprophet/generate_features.py`), together with proofs settling the
frozen claims about its specification.

Peaks are Python ints, embedded as `Int`.  Intensities are Python floats,
embedded as `ℚ` (all arithmetic the claims touch is exact).  Fallible code
is embedded in `Except Unit` (an uncaught Python exception is `.error ()`)
and `Option` (Python `None` is `none`).
-/

namespace PCP

/-- Embeds `minimize(solution)` (generate_features.py:220-227): the total of
`abs(solution[i] - solution[j])` over all index pairs `i < j`. -/
def minimize : List Int → Int
  | [] => 0
  | x :: xs => (xs.map (fun y => |x - y|)).sum + minimize xs

/-- A frontier entry of the tier-2 search: a partial assignment (one chosen
peak per already-processed member) together with its stored cost. -/
abbrev Entry := List Int × Int

/-- Embeds `add_top(result, item)` (generate_features.py:210-217): inserts
`item` into the cost-sorted `result` list, before the first entry whose
stored cost is not smaller than `item`'s. -/
def add_top : List Entry → Entry → List Entry
  | [], item => [item]
  | r :: rs, item => if r.2 < item.2 then r :: add_top rs item else item :: r :: rs

/-- One iteration of the `for peak in aoa[len(sol[0])]` loop body of
`shortest_path` (generate_features.py:278-282): every candidate `peak` of the
next member extends the popped solution `sol`, the extension is costed with
`minimize` and inserted into the frontier with `add_top`. -/
def expand (rest : List Entry) (sol : List Int) (nxt : List Int) : List Entry :=
  nxt.foldl (fun acc peak => add_top acc (sol ++ [peak], minimize (sol ++ [peak]))) rest

/-- The `while True` loop of `shortest_path` (generate_features.py:268-282).
The fuel counts the pops still allowed before the `trial == max_trial` budget
check fires (Python pops at trial values `1 .. max_trial - 1`): at fuel `0`
the search gives up with `None`; otherwise the head of the cost-sorted
frontier is popped (`result.pop(0)` on an empty frontier raises `IndexError`,
embedded as `.error ()`), a complete assignment is returned, and an
incomplete one is expanded with the next member's candidates
(`aoa[len(sol[0])]` out of range would likewise raise, `.error ()`). -/
def spLoop (aoa : List (List Int)) : Nat → List Entry → Except Unit (Option (List Int))
  | 0, _ => .ok none
  | fuel + 1, frontier =>
    match frontier with
    | [] => .error ()
    | sol :: rest =>
      if sol.1.length = aoa.length then .ok (some sol.1)
      else
        match aoa[sol.1.length]? with
        | none => .error ()
        | some nxt => spLoop aoa fuel (expand rest sol.1 nxt)

/-- Instrumented copy of `spLoop` that also counts how many frontier
expansions (pops) were performed; used to state the trial-budget claim. -/
def spLoopC (aoa : List (List Int)) :
    Nat → List Entry → Except Unit (Option (List Int)) × Nat
  | 0, _ => (.ok none, 0)
  | fuel + 1, frontier =>
    match frontier with
    | [] => (.error (), 1)
    | sol :: rest =>
      if sol.1.length = aoa.length then (.ok (some sol.1), 1)
      else
        match aoa[sol.1.length]? with
        | none => (.error (), 1)
        | some nxt =>
          let r := spLoopC aoa fuel (expand rest sol.1 nxt)
          (r.1, r.2 + 1)

/-- Embeds `result = [[[x], 0] for x in aoa[0]]` (generate_features.py:266):
the initial frontier holds one zero-cost singleton assignment per candidate
peak of the first member.  (`aoa[0]` on an empty `aoa` raises in Python; the
`headD` default produces an empty frontier, which `spLoop` immediately turns
into `.error ()`, the same uncaught-exception outcome.) -/
def initFrontier (aoa : List (List Int)) : List Entry :=
  (aoa.headD []).map (fun x => ([x], 0))

/-- Embeds `shortest_path(aoa, max_trial=5000)` (generate_features.py:264-282),
faithful for `max_trial ≥ 1`: at most `max_trial - 1` frontier pops happen
before the budget check `trial == max_trial` returns `None`. -/
def shortest_path (aoa : List (List Int)) (max_trial : Nat := 5000) :
    Except Unit (Option (List Int)) :=
  spLoop aoa (max_trial - 1) (initFrontier aoa)

/-- Embeds Python `max(l)` on a non-empty list (the `[] => 0` default is never
exercised: Python raises there and every use below is guarded). -/
def pyMax : List Int → Int
  | [] => 0
  | x :: xs => xs.foldl max x

/-- Embeds Python `min(l)` on a non-empty list (same remark as `pyMax`). -/
def pyMin : List Int → Int
  | [] => 0
  | x :: xs => xs.foldl min x

/-- Embeds `set.intersection(*map(set, aoa))` (generate_features.py:292) as a
list whose members are exactly the values present in every member's peak
list (duplicates are irrelevant: only membership and the maximum are used). -/
def interAll : List (List Int) → List Int
  | [] => []
  | a :: rest => rest.foldl (fun acc l => acc.filter (fun x => l.contains x)) a

/-- Embeds the padding loop of `min_sd` (generate_features.py:236-241): a
list shorter than `ln` is right-padded by repeating its last element; an
empty list is left unchanged (the `IndexError` on `short[-1]` is caught and
breaks the loop). -/
def padTo (ln : Nat) (l : List Int) : List Int :=
  match l.getLast? with
  | none => l
  | some z => l ++ List.replicate (ln - l.length) z

/-- Embeds `min_sd(aoa)` (generate_features.py:230-261).  The `None` filter on
each row is the identity here (rows hold ints).  `ln` is the longest row
length (Python `max` raises on an empty `aoa`; the fold default `0` then makes
the embedding return `none`, a case `alligner` never reaches).  Rows are
truncated to `ln` (a no-op) and padded with `padTo`.  Column `j` of the padded
matrix is scored by `Σᵢ (n·xᵢ − Σx)²`, an exact integer comparand ordered
exactly like the sample standard deviation `np.std(col, ddof=1)` the code
computes (`n` rows is constant across columns and `√` is monotone), and the
first column of minimal score is selected (`sd.index(min(sd))`).  The result
takes that column: entry `getD j 0` equals the Python row indexing for every
non-empty row (every non-empty row is padded to full length `ln > sd`; for an
empty row Python would append `None`, a case `alligner`'s empty-list guard
makes unreachable). -/
def min_sd_ln (aoa : List (List Int)) : Nat :=
  (aoa.map List.length).foldl max 0

/-- `rf_pk2` after the padding loop: rows truncated to `ln` (a no-op, `ln` is
the maximum) and right-padded with their last element. -/
def min_sd_mat (aoa : List (List Int)) : List (List Int) :=
  (aoa.map (fun x => x.take (min_sd_ln aoa))).map (padTo (min_sd_ln aoa))

/-- The per-column comparand `Σᵢ (n·xᵢ − Σx)²` (see `min_sd`). -/
def colScore (mat : List (List Int)) (j : Nat) : Int :=
  let col := mat.map (fun r => r.getD j 0)
  let n : Int := col.length
  let s : Int := col.sum
  (col.map (fun x => (n * x - s) ^ 2)).sum

def min_sd (aoa : List (List Int)) : Option (List Int) :=
  let scores := (List.range (min_sd_ln aoa)).map (colScore (min_sd_mat aoa))
  if scores = [] then none
  else
    let sd := scores.indexOf (pyMin scores)
    some ((min_sd_mat aoa).map (fun r => r.getD sd 0))

/-- Embeds `alligner(aoa)` (generate_features.py:284-302), parametrized by the
tier-2 and tier-3 procedures so that non-invocation facts are statable.  Any
empty member list short-circuits to `None`; `set.intersection` on zero sets is
a `TypeError` (`.error ()`); a non-empty intersection returns its maximum,
repeated once per member; otherwise tier 2 runs and a truthy (non-empty,
non-`None`) result is returned, with tier 3 as the final fallback. -/
def allignerWith (sp : List (List Int) → Except Unit (Option (List Int)))
    (md : List (List Int) → Option (List Int))
    (aoa : List (List Int)) : Except Unit (Option (List Int)) :=
  if aoa.any (fun l => l.isEmpty) then .ok none
  else
    match aoa with
    | [] => .error ()
    | a :: rest =>
      let candidate := interAll (a :: rest)
      if candidate = [] then
        match sp (a :: rest) with
        | .error e => .error e
        | .ok none => .ok (md (a :: rest))
        | .ok (some pks) => if pks = [] then .ok (md (a :: rest)) else .ok (some pks)
      else .ok (some (List.replicate (a :: rest).length (pyMax candidate)))

/-- `alligner` with its actual tiers: `shortest_path` at the default budget
and `min_sd` (generate_features.py:297-302). -/
def alligner (aoa : List (List Int)) : Except Unit (Option (List Int)) :=
  allignerWith (fun l => shortest_path l) min_sd aoa

example : alligner [[4], [5]] = .ok (some [4, 5]) := by rfl
example : alligner [[1, 3], [3]] = .ok (some [3, 3]) := by rfl
example : minimize [4, 5] = 1 := by decide

/-- Embeds `int(x)` on a Python float: truncation toward zero. -/
def pyInt (q : ℚ) : ℤ :=
  if q < 0 then ⌈q⌉ else ⌊q⌋

/-- Embeds the one-argument Python builtin `round`: nearest integer, ties to
the even neighbour (banker's rounding). -/
def pyRound (q : ℚ) : ℤ :=
  let f := ⌊q⌋
  let r := q - f
  if r < 1 / 2 then f
  else if 1 / 2 < r then f + 1
  else if f % 2 = 0 then f else f + 1

/-- Modelled from the spec: `st.medi` (the median helper of the missing
`PCprophet/stats_.py`), used at generate_features.py:147 where "missing
values gets the median of aligned peaks".  Standard median: the middle
element of the sorted list, or the mean of the two middle elements for an
even length (`0` for the empty list, which the caller never passes). -/
def medi (l : List Int) : ℚ :=
  let s := l.insertionSort (· ≤ ·)
  let n := s.length
  if n % 2 = 1 then (s.getD (n / 2) 0 : ℚ)
  else ((s.getD (n / 2 - 1) 0 : ℚ) + (s.getD (n / 2) 0 : ℚ)) / 2

/-- Embeds `ProteinProfile` (generate_features.py:14-38): an accession, the
parsed intensity vector, and the detected peaks as stored by `calc_peaks`. -/
structure ProteinProfile where
  acc : String
  inten : List ℚ
  peaks : List Int
deriving DecidableEq

/-- Embeds `ProteinProfile.calc_peaks` (generate_features.py:34-38) as a
function of the external peak detector's output `st.peak_picking(...)[0]`
(a sequence of floats): the stored peak collection is
`[int(x) for x in pks]`. -/
def calc_peaks (detected : List ℚ) : List Int :=
  detected.map pyInt

/-- Embeds `ComplexProfile.test_complex` (generate_features.py:60-64). -/
def test_complex (members : List ProteinProfile) : Bool :=
  if members.length < 2 || 100 < members.length then false else true

/-- Embeds `ComplexProfile.align_peaks` (generate_features.py:131-158) on the
member list, returning the consensus mapping `self.pks_ali` as an association
list (Python builds it as a dict keyed by accession; the two parts have
disjoint keys by the `x not in nan_members` filter, so first-match lookup
agrees with the dict).  `None` (all members peakless) is `.ok none`;
`alligner` returning `None` would crash `st.medi(None)` (`.error ()`, proven
unreachable below), as would an uncaught `alligner` exception. -/
def align_peaks (members : List ProteinProfile) :
    Except Unit (Option (List (String × Int))) :=
  let accs := members.map (·.acc)
  let nan_members := (members.filter (fun p => p.peaks.isEmpty)).map (·.acc)
  let pres := (members.map (·.peaks)).filter (fun l => ¬ l.isEmpty)
  let mb_pres := accs.filter (fun a => ¬ nan_members.contains a)
  if nan_members = accs then .ok none
  else
    match alligner pres with
    | .error e => .error e
    | .ok none => .error ()
    | .ok (some ali) =>
      let md := pyRound (medi ali)
      .ok (some (nan_members.map (fun a => (a, md)) ++ mb_pres.zip ali))

/-- Embeds `gen_feat(cmplx, goobj, gaf)` (generate_features.py:322-332),
parametrized by the alignment step and by the feature production
(`calc_go_score`/`calc_width`/`pairwise`/`create_row`/`get_peaks`, which
involve the external GO scorer): the complex passes only if `test_complex()`
and `align_peaks()` are both truthy, otherwise the `(None, None)` pair —
no feature row, no peak rows — is returned, embedded as `.ok none`. -/
def gen_featWith {ρ : Type}
    (alignFn : List ProteinProfile → Except Unit (Option (List (String × Int))))
    (featFn : List ProteinProfile → List (String × Int) → ρ)
    (members : List ProteinProfile) : Except Unit (Option ρ) :=
  if test_complex members then
    match alignFn members with
    | .error e => .error e
    | .ok none => .ok none
    | .ok (some pa) => .ok (some (featFn members pa))
  else .ok none

/-- `gen_feat` with its actual alignment step. -/
def gen_feat {ρ : Type} (featFn : List ProteinProfile → List (String × Int) → ρ)
    (members : List ProteinProfile) : Except Unit (Option ρ) :=
  gen_featWith align_peaks featFn members

/-- Embeds a Python slice `l[start:stop]` (step 1): negative bounds count
from the end, then both are clamped to `[0, len(l)]`. -/
def pySlice {α : Type} (l : List α) (start stop : Int) : List α :=
  let n : Int := l.length
  let s := if start < 0 then max (start + n) 0 else min start n
  let e := if stop < 0 then max (stop + n) 0 else min stop n
  (l.take e.toNat).drop s.toNat

/-- Index folding of `scipy.ndimage`'s default `mode='reflect'` boundary
(`(d c b a | a b c d | d c b a)`): reflection about the array edges, with
period `2n`. -/
def reflectIdx (n : Nat) (i : Int) : Nat :=
  if n = 0 then 0
  else
    let m := (i % (2 * (n : Int))).toNat
    if m < n then m else 2 * n - 1 - m

/-- Embeds `scipy.ndimage.uniform_filter(a, W)` on a 1-d array: the moving
average over the window `[i - W//2, i + (W-1) - W//2]` with reflected
boundary handling (generate_features.py:108-109). -/
def uniform_filter (a : List ℚ) (W : Nat) : List ℚ :=
  let n := a.length
  (List.range n).map (fun (i : Nat) =>
    ((List.range W).map (fun (k : Nat) =>
      a.getD (reflectIdx n ((i : Int) + (k : Int) - ((W / 2 : Nat) : Int))) 0)).sum / (W : ℚ))

/-- Embeds `ComplexProfile.calc_corr` (generate_features.py:100-129) on one
pair of intensity vectors.  The running means `am`, `bm` are centred and
sliced as `am[W//2 : -W//2+1]` (Python floor division on the negative stop).
`dam i j` / `dbm i j` are the masked deviation matrices (`j ≤ i < j + W`),
and each valid position `j` yields the Pearson numerator
`D j = Σᵢ dam·dbm` and the radicand `ssA j * ssB j` of the denominator
`np.sqrt(ssAs * ssBs)`.  An output entry `some (num, rad)` denotes the float
`num / √rad` (NaN when `rad = 0`); the appended `np.zeros(9) + np.nan` tail
is `replicate 9 none`. -/
def calc_corr (a b : List ℚ) (W : Nat) : List (Option (ℚ × ℚ)) :=
  let am := uniform_filter a W
  let bm := uniform_filter b W
  let amc := pySlice am ((W / 2 : Nat) : Int) ((-(W : Int)).fdiv 2 + 1)
  let bmc := pySlice bm ((W / 2 : Nat) : Int) ((-(W : Int)).fdiv 2 + 1)
  let m := a.length
  let dam := fun (i j : Nat) =>
    if j ≤ i ∧ i < j + W then a.getD i 0 - amc.getD j 0 else 0
  let dbm := fun (i j : Nat) =>
    if j ≤ i ∧ i < j + W then b.getD i 0 - bmc.getD j 0 else 0
  let ssA := fun (j : Nat) => ((List.range m).map (fun i => dam i j * dam i j)).sum
  let ssB := fun (j : Nat) => ((List.range m).map (fun i => dbm i j * dbm i j)).sum
  let D := fun (j : Nat) => ((List.range m).map (fun i => dam i j * dbm i j)).sum
  ((List.range amc.length).map (fun j => some (D j, ssA j * ssB j))) ++
    List.replicate 9 none

/-- Embeds `ComplexProfile.calc_width` (generate_features.py:179-188),
parametrized by the FWHM helper `st.fwhm` (missing `PCprophet/stats_.py`)
and by the consensus-peak mapping `self.pks_ali`：each member's intensity
vector is sliced to `[(peak - 5):(peak + 5)]` (a Python slice, so a negative
start counts from the end) and the member FWHMs are averaged by `np.mean`
(sum over length; the empty-member case, `np.mean([]) = nan`, is embedded as
rational `0/0 = 0` and never arises for validated complexes). -/
def calc_width (fw : List ℚ → ℚ) (pksAli : String → Int)
    (members : List ProteinProfile) : ℚ :=
  let width := members.map (fun prot =>
    fw (pySlice prot.inten (pksAli prot.acc - 5) (pksAli prot.acc + 5)))
  width.sum / (width.length : ℚ)

/-- Follows the spec's words for the C6 window: the member's intensity
restricted to the fractions `[peak - 5, peak + 5)` (clamped to the domain),
centred on the consensus peak for every peak value. -/
def centerWindow (inten : List ℚ) (peak : Int) : List ℚ :=
  (inten.take (peak + 5).toNat).drop (peak - 5).toNat

/-- Follows the spec's words for C6: the width is the mean over members of
the FWHM of the centred `±5`-fraction window around that member's peak. -/
def spec_calc_width (fw : List ℚ → ℚ) (pksAli : String → Int)
    (members : List ProteinProfile) : ℚ :=
  let width := members.map (fun prot => fw (centerWindow prot.inten (pksAli prot.acc)))
  width.sum / (width.length : ℚ)

example : align_peaks [⟨"A", [], [3]⟩, ⟨"B", [], []⟩] =
    .ok (some [("B", pyRound (medi [3])), ("A", 3)]) := by rfl
example : (calc_corr (List.replicate 72 0) (List.replicate 72 0) 10).length = 72 := by decide
example : (calc_corr (List.replicate 72 0) (List.replicate 72 0) 12).length = 70 := by decide
example : calc_width (fun l => (l.length : ℚ)) (fun _ => 2)
    [⟨"A", List.replicate 72 0, []⟩] = 0 := by
  norm_num [calc_width, pySlice]
example : spec_calc_width (fun l => (l.length : ℚ)) (fun _ => 2)
    [⟨"A", List.replicate 72 0, []⟩] = 7 := by
  norm_num [spec_calc_width, centerWindow, show ((-3 : Int).toNat) = 0 from rfl,
    show ((7 : Int).toNat) = 7 from rfl]

/-! ### Selections: choosing exactly one peak per member -/

/-- `s` selects exactly one peak per member of `aoa`, in order: `s` and `aoa`
have the same length and the `i`-th value of `s` lies in the `i`-th list. -/
def Sel (aoa : List (List Int)) (s : List Int) : Prop :=
  List.Forall₂ (fun x l => x ∈ l) s aoa

/-- `s` is a partial selection: its `i`-th value lies in the `i`-th list of
`aoa`, for the first `s.length` members. -/
def PreSel (aoa : List (List Int)) (s : List Int) : Prop :=
  List.Forall₂ (fun x l => x ∈ l) s (aoa.take s.length)

theorem Sel.length_eq {aoa : List (List Int)} {s : List Int} (h : Sel aoa s) :
    s.length = aoa.length :=
  List.Forall₂.length_eq h

theorem PreSel.length_le {aoa : List (List Int)} {s : List Int} (h : PreSel aoa s) :
    s.length ≤ aoa.length := by
  have := List.Forall₂.length_eq h
  simp only [List.length_take] at this
  omega

theorem PreSel.extend {aoa : List (List Int)} {s : List Int} {nxt : List Int} {x : Int}
    (h : PreSel aoa s) (hn : aoa[s.length]? = some nxt) (hx : x ∈ nxt) :
    PreSel aoa (s ++ [x]) := by
  unfold PreSel at h ⊢
  have hlen : (s ++ [x]).length = s.length + 1 := by simp
  rw [hlen, List.take_succ, hn]
  exact List.rel_append h (List.Forall₂.cons hx List.Forall₂.nil)

theorem PreSel.toSel {aoa : List (List Int)} {s : List Int}
    (h : PreSel aoa s) (hl : s.length = aoa.length) : Sel aoa s := by
  unfold PreSel at h
  rwa [hl, List.take_length] at h

theorem take_min_self {α : Type} (l : List α) (n : Nat) :
    l.take (min n l.length) = l.take n := by
  rcases le_total n l.length with h | h
  · rw [min_eq_left h]
  · rw [min_eq_right h, List.take_length, List.take_of_length_le h]

theorem Sel.take {aoa : List (List Int)} {t : List Int} (h : Sel aoa t) (n : Nat) :
    PreSel aoa (t.take n) := by
  unfold PreSel
  have h1 := List.forall₂_take (R := fun x l => x ∈ l) n h
  have h2 : (t.take n).length = min n aoa.length := by
    simp [List.length_take, h.length_eq]
  rw [h2, take_min_self]
  exact h1

theorem forall₂_getElem? {α β : Type} {R : α → β → Prop} :
    ∀ {l₁ : List α} {l₂ : List β}, List.Forall₂ R l₁ l₂ →
    ∀ {i : Nat} {a : α} {b : β}, l₁[i]? = some a → l₂[i]? = some b → R a b := by
  intro l₁ l₂ h
  induction h with
  | nil => intro i a b h1 _; simp at h1
  | cons hr _ ih =>
    intro i a b h1 h2
    cases i with
    | zero => simp_all
    | succ j => exact ih (by simpa using h1) (by simpa using h2)

/-! ### Properties of `minimize`: the cost is monotone under extension -/

theorem minimize_nonneg : ∀ l : List Int, 0 ≤ minimize l
  | [] => le_refl 0
  | x :: xs => by
    have h1 : 0 ≤ (xs.map (fun y => |x - y|)).sum :=
      List.sum_nonneg (by
        intro a ha
        obtain ⟨y, _, rfl⟩ := List.mem_map.mp ha
        exact abs_nonneg _)
    have h2 := minimize_nonneg xs
    simp only [minimize]
    omega

theorem minimize_append_le : ∀ s t : List Int, minimize s ≤ minimize (s ++ t)
  | [], t => minimize_nonneg t
  | x :: xs, t => by
    have h1 := minimize_append_le xs t
    have h2 : 0 ≤ (t.map (fun y => |x - y|)).sum :=
      List.sum_nonneg (by
        intro a ha
        obtain ⟨y, _, rfl⟩ := List.mem_map.mp ha
        exact abs_nonneg _)
    simp only [List.cons_append, minimize, List.append_eq, List.map_append,
      List.sum_append]
    omega

theorem minimize_take_le (n : Nat) (t : List Int) : minimize (t.take n) ≤ minimize t := by
  conv_rhs => rw [← List.take_append_drop n t]
  exact minimize_append_le _ _

/-! ### Properties of `add_top` and `expand`: the frontier stays sorted -/

theorem add_top_mem (l : List Entry) (item p : Entry) :
    p ∈ add_top l item ↔ p = item ∨ p ∈ l := by
  induction l with
  | nil => simp [add_top]
  | cons r rs ih =>
    by_cases h : r.2 < item.2
    · simp only [add_top, if_pos h, List.mem_cons, ih]
      tauto
    · simp only [add_top, if_neg h, List.mem_cons]

theorem add_top_ne_nil (l : List Entry) (item : Entry) : add_top l item ≠ [] := by
  cases l with
  | nil => simp [add_top]
  | cons r rs =>
    by_cases h : r.2 < item.2 <;> simp [add_top, h]

theorem add_top_sorted {l : List Entry} (item : Entry)
    (h : List.Sorted (fun p q : Entry => p.2 ≤ q.2) l) :
    List.Sorted (fun p q : Entry => p.2 ≤ q.2) (add_top l item) := by
  induction l with
  | nil => simp [add_top]
  | cons r rs ih =>
    rw [List.sorted_cons] at h
    obtain ⟨hr, hrs⟩ := h
    by_cases hlt : r.2 < item.2
    · rw [add_top, if_pos hlt, List.sorted_cons]
      refine ⟨?_, ih hrs⟩
      intro b hb
      rcases (add_top_mem rs item b).mp hb with rfl | hb
      · exact le_of_lt hlt
      · exact hr b hb
    · rw [add_top, if_neg hlt, List.sorted_cons]
      refine ⟨?_, List.sorted_cons.mpr ⟨hr, hrs⟩⟩
      intro b hb
      rcases List.mem_cons.mp hb with rfl | hb
      · exact le_of_not_lt hlt
      · exact le_trans (le_of_not_lt hlt) (hr b hb)

theorem expand_nil (acc : List Entry) (sol : List Int) : expand acc sol [] = acc := rfl

theorem expand_cons (acc : List Entry) (sol : List Int) (pk : Int) (pks : List Int) :
    expand acc sol (pk :: pks) =
      expand (add_top acc (sol ++ [pk], minimize (sol ++ [pk]))) sol pks := rfl

theorem expand_mem (sol : List Int) :
    ∀ (nxt : List Int) (acc : List Entry) (p : Entry),
      p ∈ expand acc sol nxt ↔
        p ∈ acc ∨ ∃ pk ∈ nxt, p = (sol ++ [pk], minimize (sol ++ [pk])) := by
  intro nxt
  induction nxt with
  | nil => intro acc p; simp [expand_nil]
  | cons pk pks ih =>
    intro acc p
    rw [expand_cons, ih]
    simp only [add_top_mem, List.mem_cons]
    constructor
    · rintro ((rfl | hp) | ⟨q, hq, rfl⟩)
      · exact Or.inr ⟨pk, Or.inl rfl, rfl⟩
      · exact Or.inl hp
      · exact Or.inr ⟨q, Or.inr hq, rfl⟩
    · rintro (hp | ⟨q, (rfl | hq), rfl⟩)
      · exact Or.inl (Or.inr hp)
      · exact Or.inl (Or.inl rfl)
      · exact Or.inr ⟨q, hq, rfl⟩

theorem expand_ne_nil_of_acc (sol : List Int) :
    ∀ (nxt : List Int) (acc : List Entry), acc ≠ [] → expand acc sol nxt ≠ [] := by
  intro nxt
  induction nxt with
  | nil => intro acc h; simpa [expand_nil] using h
  | cons pk pks ih =>
    intro acc _
    rw [expand_cons]
    exact ih _ (add_top_ne_nil _ _)

theorem expand_ne_nil (sol : List Int) (nxt : List Int) (acc : List Entry)
    (h : nxt ≠ []) : expand acc sol nxt ≠ [] := by
  cases nxt with
  | nil => exact absurd rfl h
  | cons pk pks =>
    rw [expand_cons]
    exact expand_ne_nil_of_acc sol pks _ (add_top_ne_nil _ _)

theorem expand_sorted (sol : List Int) :
    ∀ (nxt : List Int) (acc : List Entry),
      List.Sorted (fun p q : Entry => p.2 ≤ q.2) acc →
      List.Sorted (fun p q : Entry => p.2 ≤ q.2) (expand acc sol nxt) := by
  intro nxt
  induction nxt with
  | nil => intro acc h; simpa [expand_nil] using h
  | cons pk pks ih =>
    intro acc h
    rw [expand_cons]
    exact ih _ (add_top_sorted _ h)

/-! ### Soundness of the tier-2 search loop -/

/-- If a cost-sorted frontier of honestly-costed partial selections covers
every complete selection by one of its prefixes, and `spLoop` pops a complete
assignment, that assignment is a complete selection whose `minimize` cost is
minimal among all complete selections. -/
theorem spLoop_sound (aoa : List (List Int)) :
    ∀ (fuel : Nat) (fr : List Entry),
      (∀ p ∈ fr, PreSel aoa p.1 ∧ p.2 = minimize p.1) →
      List.Sorted (fun p q : Entry => p.2 ≤ q.2) fr →
      (∀ t, Sel aoa t → ∃ p ∈ fr, p.1 = t.take p.1.length) →
      ∀ s, spLoop aoa fuel fr = .ok (some s) →
        Sel aoa s ∧ ∀ t, Sel aoa t → minimize s ≤ minimize t := by
  intro fuel
  induction fuel with
  | zero => intro fr _ _ _ s h; simp [spLoop] at h
  | succ fuel ih =>
    intro fr hinv hsort hcov s h
    cases fr with
    | nil => simp [spLoop] at h
    | cons sol rest =>
      by_cases hc : sol.1.length = aoa.length
      · rw [spLoop, if_pos hc] at h
        obtain ⟨hsol, hcost⟩ := hinv sol (List.mem_cons_self _ _)
        have hs : sol.1 = s := by
          injection h with h1; injection h1
        subst hs
        refine ⟨hsol.toSel hc, ?_⟩
        intro t ht
        obtain ⟨p, hp, hpt⟩ := hcov t ht
        have hple : sol.2 ≤ p.2 := by
          rcases List.mem_cons.mp hp with rfl | hp'
          · exact le_refl _
          · exact List.rel_of_sorted_cons hsort p hp'
        have hpc : p.2 = minimize p.1 := (hinv p hp).2
        calc minimize sol.1 = sol.2 := hcost.symm
          _ ≤ p.2 := hple
          _ = minimize p.1 := hpc
          _ = minimize (t.take p.1.length) := by rw [← hpt]
          _ ≤ minimize t := minimize_take_le _ _
      · rw [spLoop, if_neg hc] at h
        cases hget : aoa[sol.1.length]? with
        | none => rw [hget] at h; simp at h
        | some nxt =>
          rw [hget] at h
          obtain ⟨hsol, _⟩ := hinv sol (List.mem_cons_self _ _)
          refine ih (expand rest sol.1 nxt) ?_ ?_ ?_ s h
          · intro p hp
            rcases (expand_mem sol.1 nxt rest p).mp hp with hp' | ⟨pk, hpk, rfl⟩
            · exact hinv p (List.mem_cons_of_mem _ hp')
            · exact ⟨hsol.extend hget hpk, rfl⟩
          · exact expand_sorted _ _ _ hsort.of_cons
          · intro t ht
            obtain ⟨p, hp, hpt⟩ := hcov t ht
            rcases List.mem_cons.mp hp with rfl | hp'
            · have hlt : p.1.length < t.length := by
                have h1 := hsol.length_le
                have h2 := ht.length_eq
                omega
              obtain ⟨y, hty⟩ : ∃ y, t[p.1.length]? = some y :=
                ⟨_, List.getElem?_eq_getElem hlt⟩
              have haoa : aoa[p.1.length]? = some nxt := hget
              have hy : y ∈ nxt := forall₂_getElem? ht hty haoa
              refine ⟨(p.1 ++ [y], minimize (p.1 ++ [y])), ?_, ?_⟩
              · exact (expand_mem _ _ _ _).mpr (Or.inr ⟨_, hy, rfl⟩)
              · have hlen : (p.1 ++ [y]).length = p.1.length + 1 := by
                  simp
                rw [hlen, List.take_succ, hty, ← hpt]
                rfl
            · exact ⟨p, (expand_mem _ _ _ _).mpr (Or.inl hp'), hpt⟩

/-- For non-empty candidate lists the search never raises: every run within
the budget ends in `.ok` (either a complete assignment or `None`). -/
theorem spLoop_ok (aoa : List (List Int)) (hne : ∀ l ∈ aoa, l ≠ []) :
    ∀ (fuel : Nat) (fr : List Entry), fr ≠ [] →
      (∀ p ∈ fr, p.1.length ≤ aoa.length) →
      ∃ r, spLoop aoa fuel fr = .ok r := by
  intro fuel
  induction fuel with
  | zero => intro fr _ _; exact ⟨none, rfl⟩
  | succ fuel ih =>
    intro fr hfr hlen
    cases fr with
    | nil => exact absurd rfl hfr
    | cons sol rest =>
      by_cases hc : sol.1.length = aoa.length
      · exact ⟨some sol.1, by rw [spLoop, if_pos hc]⟩
      · have hlt : sol.1.length < aoa.length :=
          lt_of_le_of_ne (hlen sol (List.mem_cons_self _ _)) hc
        obtain ⟨nxt, hget⟩ : ∃ nxt, aoa[sol.1.length]? = some nxt :=
          ⟨_, List.getElem?_eq_getElem hlt⟩
        have hnxt_ne : nxt ≠ [] := by
          obtain ⟨h2, he⟩ := List.getElem?_eq_some.mp hget
          rw [← he]
          exact hne _ (List.getElem_mem h2)
        have hlen' : ∀ p ∈ expand rest sol.1 nxt,
            p.1.length ≤ aoa.length := by
          intro p hp
          rcases (expand_mem _ _ _ _).mp hp with hp' | ⟨pk, _, rfl⟩
          · exact hlen p (List.mem_cons_of_mem _ hp')
          · simp only [List.length_append, List.length_cons, List.length_nil]
            omega
        obtain ⟨r, hr⟩ := ih (expand rest sol.1 nxt)
          (expand_ne_nil _ _ _ hnxt_ne) hlen'
        exact ⟨r, by rw [spLoop, if_neg hc, hget]; exact hr⟩

/-- The instrumented loop computes the same result as `spLoop`. -/
theorem spLoopC_fst (aoa : List (List Int)) :
    ∀ (fuel : Nat) (fr : List Entry),
      (spLoopC aoa fuel fr).1 = spLoop aoa fuel fr := by
  intro fuel
  induction fuel with
  | zero => intro fr; rfl
  | succ fuel ih =>
    intro fr
    cases fr with
    | nil => rfl
    | cons sol rest =>
      by_cases hc : sol.1.length = aoa.length
      · rw [spLoopC, spLoop, if_pos hc, if_pos hc]
      · rw [spLoopC, spLoop, if_neg hc, if_neg hc]
        cases hget : aoa[sol.1.length]? with
        | none => rfl
        | some nxt => exact ih _

/-- The loop performs at most `fuel` frontier expansions. -/
theorem spLoopC_le (aoa : List (List Int)) :
    ∀ (fuel : Nat) (fr : List Entry), (spLoopC aoa fuel fr).2 ≤ fuel := by
  intro fuel
  induction fuel with
  | zero => intro fr; exact le_refl 0
  | succ fuel ih =>
    intro fr
    cases fr with
    | nil => simp [spLoopC]
    | cons sol rest =>
      by_cases hc : sol.1.length = aoa.length
      · rw [spLoopC, if_pos hc]; omega
      · rw [spLoopC, if_neg hc]
        cases hget : aoa[sol.1.length]? with
        | none => simp
        | some nxt =>
          have := ih (expand rest sol.1 nxt)
          simpa using Nat.add_le_add_right this 1

/-! ### Properties of `pyMax`, `pyMin` and `interAll` -/

theorem foldl_max_mem {α : Type} [LinearOrder α] :
    ∀ (xs : List α) (a : α), xs.foldl max a = a ∨ xs.foldl max a ∈ xs := by
  intro xs
  induction xs with
  | nil => intro a; exact Or.inl rfl
  | cons y ys ih =>
    intro a
    rw [List.foldl_cons]
    rcases ih (max a y) with h | h
    · rcases max_choice a y with he | he
      · exact Or.inl (h.trans he)
      · exact Or.inr (by rw [h, he]; exact List.mem_cons_self _ _)
    · exact Or.inr (List.mem_cons_of_mem _ h)

theorem le_foldl_max {α : Type} [LinearOrder α] :
    ∀ (xs : List α) (a : α), a ≤ xs.foldl max a := by
  intro xs
  induction xs with
  | nil => intro a; exact le_refl a
  | cons y ys ih =>
    intro a
    rw [List.foldl_cons]
    exact le_trans (le_max_left a y) (ih (max a y))

theorem mem_le_foldl_max {α : Type} [LinearOrder α] :
    ∀ (xs : List α) (a y : α), y ∈ xs → y ≤ xs.foldl max a := by
  intro xs
  induction xs with
  | nil => intro a y hy; simp at hy
  | cons z zs ih =>
    intro a y hy
    rw [List.foldl_cons]
    rcases List.mem_cons.mp hy with rfl | hy'
    · exact le_trans (le_max_right a y) (le_foldl_max zs _)
    · exact ih _ y hy'

theorem foldl_min_mem {α : Type} [LinearOrder α] :
    ∀ (xs : List α) (a : α), xs.foldl min a = a ∨ xs.foldl min a ∈ xs := by
  intro xs
  induction xs with
  | nil => intro a; exact Or.inl rfl
  | cons y ys ih =>
    intro a
    rw [List.foldl_cons]
    rcases ih (min a y) with h | h
    · rcases min_choice a y with he | he
      · exact Or.inl (h.trans he)
      · exact Or.inr (by rw [h, he]; exact List.mem_cons_self _ _)
    · exact Or.inr (List.mem_cons_of_mem _ h)

theorem pyMax_mem {l : List Int} (h : l ≠ []) : pyMax l ∈ l := by
  cases l with
  | nil => exact absurd rfl h
  | cons x xs =>
    rcases foldl_max_mem xs x with h' | h'
    · rw [pyMax, h']; exact List.mem_cons_self _ _
    · exact List.mem_cons_of_mem _ h'

theorem le_pyMax {l : List Int} {y : Int} (hy : y ∈ l) : y ≤ pyMax l := by
  cases l with
  | nil => simp at hy
  | cons x xs =>
    rcases List.mem_cons.mp hy with rfl | hy'
    · exact le_foldl_max xs y
    · exact mem_le_foldl_max xs x y hy'

theorem pyMin_mem {l : List Int} (h : l ≠ []) : pyMin l ∈ l := by
  cases l with
  | nil => exact absurd rfl h
  | cons x xs =>
    rcases foldl_min_mem xs x with h' | h'
    · rw [pyMin, h']; exact List.mem_cons_self _ _
    · exact List.mem_cons_of_mem _ h'

theorem interAll_foldl_mem (x : Int) :
    ∀ (rest : List (List Int)) (acc : List Int),
      x ∈ rest.foldl (fun acc l => acc.filter (fun y => l.contains y)) acc ↔
        x ∈ acc ∧ ∀ l ∈ rest, x ∈ l := by
  intro rest
  induction rest with
  | nil => intro acc; simp
  | cons l ls ih =>
    intro acc
    rw [List.foldl_cons, ih]
    simp only [List.mem_filter, List.mem_cons]
    constructor
    · rintro ⟨⟨hacc, hc⟩, hls⟩
      refine ⟨hacc, ?_⟩
      rintro l' (rfl | hl')
      · simpa using hc
      · exact hls l' hl'
    · rintro ⟨hacc, hall⟩
      exact ⟨⟨hacc, by simpa using hall l (Or.inl rfl)⟩,
        fun l' hl' => hall l' (Or.inr hl')⟩

theorem interAll_mem {a : List Int} {rest : List (List Int)} {x : Int} :
    x ∈ interAll (a :: rest) ↔ x ∈ a ∧ ∀ l ∈ rest, x ∈ l := by
  rw [interAll]
  exact interAll_foldl_mem x rest a

/-! ### Properties of `min_sd` -/

theorem padTo_getD_mem {ln : Nat} {l : List Int} (hl : l ≠ []) {j : Nat} (hj : j < ln) :
    (padTo ln l).getD j 0 ∈ l := by
  rw [padTo, List.getLast?_eq_getLast l hl]
  rw [List.getD_eq_getElem?_getD, List.getElem?_append]
  by_cases hjl : j < l.length
  · rw [if_pos hjl, List.getElem?_eq_getElem hjl]
    exact List.getElem_mem hjl
  · rw [if_neg hjl]
    have hrep : j - l.length < ln - l.length := by omega
    rw [List.getElem?_replicate, if_pos hrep]
    exact List.getLast_mem hl

/-- Every row of `aoa` is at most `min_sd_ln aoa` long. -/
theorem min_sd_row_le {aoa : List (List Int)} {r : List Int} (hr : r ∈ aoa) :
    r.length ≤ min_sd_ln aoa :=
  mem_le_foldl_max _ _ _ (List.mem_map_of_mem _ hr)

/-- The selected column index of `min_sd` (`sd = sd.index(min(sd))`). -/
def min_sd_idx (aoa : List (List Int)) : Nat :=
  ((List.range (min_sd_ln aoa)).map (colScore (min_sd_mat aoa))).indexOf
    (pyMin ((List.range (min_sd_ln aoa)).map (colScore (min_sd_mat aoa))))

theorem min_sd_eq_some {aoa : List (List Int)} {res : List Int}
    (h : min_sd aoa = some res) :
    0 < min_sd_ln aoa ∧
      res = (min_sd_mat aoa).map (fun r => r.getD (min_sd_idx aoa) 0) := by
  rw [min_sd] at h
  by_cases hsc : (List.range (min_sd_ln aoa)).map (colScore (min_sd_mat aoa)) = []
  · rw [if_pos hsc] at h
    exact absurd h (by simp)
  · rw [if_neg hsc] at h
    have hln : 0 < min_sd_ln aoa := by
      by_contra hln
      have h0 : min_sd_ln aoa = 0 := by omega
      rw [h0] at hsc
      simp at hsc
    exact ⟨hln, (Option.some.inj h).symm⟩

/-- The selected column index is a valid column: `sd < ln`. -/
theorem min_sd_idx_lt {aoa : List (List Int)} (h : 0 < min_sd_ln aoa) :
    min_sd_idx aoa < min_sd_ln aoa := by
  have hne : (List.range (min_sd_ln aoa)).map (colScore (min_sd_mat aoa)) ≠ [] := by
    simp only [ne_eq, List.map_eq_nil_iff, List.range_eq_nil]
    omega
  have hmem := pyMin_mem hne
  have := List.indexOf_lt_length.mpr hmem
  simpa [min_sd_idx] using this

/-- Tier 3 produces a genuine selection: one value per member, each taken
from that member's own (non-empty) peak list. -/
theorem min_sd_sel {aoa : List (List Int)} (hne : ∀ l ∈ aoa, l ≠ [])
    {res : List Int} (h : min_sd aoa = some res) : Sel aoa res := by
  obtain ⟨hln, hres⟩ := min_sd_eq_some h
  rw [hres]
  unfold min_sd_mat
  rw [List.map_map]
  rw [Sel, List.forall₂_map_left_iff, List.forall₂_map_left_iff]
  rw [List.forall₂_same]
  intro r hr
  simp only [Function.comp_apply]
  have hrln : r.length ≤ min_sd_ln aoa := min_sd_row_le hr
  rw [List.take_of_length_le hrln]
  exact padTo_getD_mem (hne r hr) (min_sd_idx_lt hln)

/-- Tier 3 always succeeds on a non-empty list of non-empty peak lists. -/
theorem min_sd_total {aoa : List (List Int)} (hne0 : aoa ≠ [])
    (hne : ∀ l ∈ aoa, l ≠ []) : ∃ res, min_sd aoa = some res := by
  have hln : 0 < min_sd_ln aoa := by
    cases aoa with
    | nil => exact absurd rfl hne0
    | cons a rest =>
      have ha := hne a (List.mem_cons_self _ _)
      have h1 : 0 < a.length := List.length_pos.mpr ha
      have h2 : a.length ≤ min_sd_ln (a :: rest) :=
        min_sd_row_le (List.mem_cons_self _ _)
      omega
  rw [min_sd]
  have hsc : (List.range (min_sd_ln aoa)).map (colScore (min_sd_mat aoa)) ≠ [] := by
    simp only [ne_eq, List.map_eq_nil_iff, List.range_eq_nil]
    omega
  rw [if_neg hsc]
  exact ⟨_, rfl⟩

/-! ### Soundness of `shortest_path` and `alligner` -/

theorem pairwise_of_rel {α : Type} {R : α → α → Prop} (hR : ∀ a b, R a b) :
    ∀ l : List α, List.Pairwise R l
  | [] => List.Pairwise.nil
  | x :: xs => List.Pairwise.cons (fun b _ => hR x b) (pairwise_of_rel hR xs)

theorem initFrontier_inv {a : List Int} {rest : List (List Int)} :
    ∀ p ∈ initFrontier (a :: rest), PreSel (a :: rest) p.1 ∧ p.2 = minimize p.1 := by
  intro p hp
  rw [initFrontier, List.headD_cons] at hp
  obtain ⟨x, hx, rfl⟩ := List.mem_map.mp hp
  refine ⟨?_, rfl⟩
  unfold PreSel
  simp only [List.length_cons, List.length_nil, List.take_succ_cons, List.take_zero]
  exact List.Forall₂.cons hx List.Forall₂.nil

theorem initFrontier_sorted (aoa : List (List Int)) :
    List.Sorted (fun p q : Entry => p.2 ≤ q.2) (initFrontier aoa) := by
  rw [initFrontier, List.Sorted, List.pairwise_map]
  exact pairwise_of_rel (fun a b => le_refl 0) _

theorem initFrontier_cov {a : List Int} {rest : List (List Int)} :
    ∀ t, Sel (a :: rest) t → ∃ p ∈ initFrontier (a :: rest), p.1 = t.take p.1.length := by
  intro t ht
  cases t with
  | nil => have := ht.length_eq; simp at this
  | cons y t' =>
    have hy : y ∈ a := by cases ht; assumption
    refine ⟨([y], 0), ?_, ?_⟩
    · rw [initFrontier, List.headD_cons]
      exact List.mem_map_of_mem _ hy
    · simp

theorem initFrontier_ne_nil {a : List Int} {rest : List (List Int)} (ha : a ≠ []) :
    initFrontier (a :: rest) ≠ [] := by
  rw [initFrontier, List.headD_cons]
  simpa using ha

theorem initFrontier_len {a : List Int} {rest : List (List Int)} :
    ∀ p ∈ initFrontier (a :: rest), p.1.length ≤ (a :: rest).length := by
  intro p hp
  rw [initFrontier, List.headD_cons] at hp
  obtain ⟨x, _, rfl⟩ := List.mem_map.mp hp
  simp

/-- A complete assignment returned by `shortest_path` (at any budget) is a
minimal-cost complete selection. -/
theorem shortest_path_sound {aoa : List (List Int)} {s : List Int} {mt : Nat}
    (h : shortest_path aoa mt = .ok (some s)) :
    Sel aoa s ∧ ∀ t, Sel aoa t → minimize s ≤ minimize t := by
  cases aoa with
  | nil =>
    rw [shortest_path] at h
    cases hf : mt - 1 with
    | zero => rw [hf] at h; simp [spLoop, initFrontier] at h
    | succ f => rw [hf] at h; simp [spLoop, initFrontier] at h
  | cons a rest =>
    exact spLoop_sound _ _ _ initFrontier_inv (initFrontier_sorted _)
      initFrontier_cov s h

theorem sel_replicate {aoa : List (List Int)} {m : Int}
    (h : ∀ l ∈ aoa, m ∈ l) : Sel aoa (List.replicate aoa.length m) := by
  induction aoa with
  | nil => exact List.Forall₂.nil
  | cons a rest ih =>
    simp only [List.length_cons, List.replicate_succ]
    exact List.Forall₂.cons (h a (List.mem_cons_self _ _))
      (ih fun l hl => h l (List.mem_cons_of_mem _ hl))

theorem any_isEmpty_eq_false {aoa : List (List Int)} (h : ∀ l ∈ aoa, l ≠ []) :
    aoa.any (fun l => l.isEmpty) = false := by
  rw [List.any_eq_false]
  intro l hl
  simpa using h l hl

theorem interAll_forall_mem {aoa : List (List Int)} {x : Int}
    (hne0 : aoa ≠ []) (hx : x ∈ interAll aoa) : ∀ l ∈ aoa, x ∈ l := by
  cases aoa with
  | nil => exact absurd rfl hne0
  | cons a rest =>
    obtain ⟨ha, hrest⟩ := interAll_mem.mp hx
    intro l hl
    rcases List.mem_cons.mp hl with rfl | hl'
    · exact ha
    · exact hrest l hl'

/-- The tier-1 branch: a non-empty intersection short-circuits both tiers 2
and 3 (which are arbitrary here) and yields its maximum for every member. -/
theorem allignerWith_tier1 {aoa : List (List Int)}
    (hne : ∀ l ∈ aoa, l ≠ []) (hint : interAll aoa ≠ [])
    (sp : List (List Int) → Except Unit (Option (List Int)))
    (md : List (List Int) → Option (List Int)) :
    allignerWith sp md aoa =
      .ok (some (List.replicate aoa.length (pyMax (interAll aoa)))) := by
  cases aoa with
  | nil => exact absurd (rfl : interAll [] = []) hint
  | cons a rest =>
    rw [allignerWith, any_isEmpty_eq_false hne]
    simp only [Bool.false_eq_true, if_false]
    rw [if_neg hint]

/-- The tier-2/3 branch: with an empty intersection, `alligner` runs the
search and falls back to `min_sd` when the search yields nothing truthy. -/
theorem alligner_tier23 {aoa : List (List Int)}
    (hne : ∀ l ∈ aoa, l ≠ []) (hne0 : aoa ≠ []) (hint : interAll aoa = []) :
    alligner aoa =
      (match shortest_path aoa with
        | .error e => .error e
        | .ok none => .ok (min_sd aoa)
        | .ok (some pks) =>
            if pks = [] then .ok (min_sd aoa) else .ok (some pks)) := by
  cases aoa with
  | nil => exact absurd rfl hne0
  | cons a rest =>
    rw [alligner, allignerWith, any_isEmpty_eq_false hne]
    simp only [Bool.false_eq_true, if_false]
    rw [if_pos hint]

theorem shortest_path_ok {aoa : List (List Int)} (hne0 : aoa ≠ [])
    (hne : ∀ l ∈ aoa, l ≠ []) (mt : Nat) :
    ∃ r, shortest_path aoa mt = .ok r := by
  cases aoa with
  | nil => exact absurd rfl hne0
  | cons a rest =>
    rw [shortest_path]
    exact spLoop_ok _ hne _ _
      (initFrontier_ne_nil (hne a (List.mem_cons_self _ _))) initFrontier_len

/-- Whatever tier fires, a non-`None` `alligner` result is a selection:
one peak per member, in order, each from that member's own list. -/
theorem alligner_sel {aoa : List (List Int)} (hne : ∀ l ∈ aoa, l ≠ [])
    {res : List Int} (h : alligner aoa = .ok (some res)) : Sel aoa res := by
  cases haoa : aoa with
  | nil =>
    subst haoa
    rw [alligner, allignerWith] at h
    simp [List.any_nil] at h
  | cons a rest =>
    subst haoa
    by_cases hint : interAll (a :: rest) = []
    · rw [alligner_tier23 hne (by simp) hint] at h
      cases hsp : shortest_path (a :: rest) with
      | error e => rw [hsp] at h; exact absurd h (by simp)
      | ok r =>
        rw [hsp] at h
        cases r with
        | none =>
          simp only [Except.ok.injEq] at h
          exact min_sd_sel hne h
        | some pks =>
          dsimp only at h
          by_cases hpks : pks = []
          · rw [if_pos hpks] at h
            simp only [Except.ok.injEq] at h
            exact min_sd_sel hne h
          · rw [if_neg hpks] at h
            simp only [Except.ok.injEq, Option.some.injEq] at h
            subst h
            exact (shortest_path_sound hsp).1
    · rw [alligner] at h
      rw [allignerWith_tier1 hne hint _ _] at h
      simp only [Except.ok.injEq, Option.some.injEq] at h
      subst h
      have hmx := pyMax_mem hint
      exact sel_replicate (interAll_forall_mem (by simp) hmx)

/-- On a non-empty list of non-empty peak lists `alligner` always succeeds:
no exception and no `None`, and the result is a selection. -/
theorem alligner_total {aoa : List (List Int)} (hne0 : aoa ≠ [])
    (hne : ∀ l ∈ aoa, l ≠ []) :
    ∃ res, alligner aoa = .ok (some res) ∧ Sel aoa res := by
  by_cases hint : interAll aoa = []
  · obtain ⟨r, hr⟩ := shortest_path_ok hne0 hne 5000
    rw [alligner_tier23 hne hne0 hint]
    cases r with
    | none =>
      rw [hr]
      obtain ⟨res, hres⟩ := min_sd_total hne0 hne
      exact ⟨res, by rw [hres], min_sd_sel hne hres⟩
    | some pks =>
      rw [hr]
      have hsel := (shortest_path_sound hr).1
      have hlen := hsel.length_eq
      have hpks : pks ≠ [] := by
        intro hp
        subst hp
        have h0 : aoa.length = 0 := by simpa using hlen.symm
        exact hne0 (List.length_eq_zero.mp h0)
      dsimp only
      rw [if_neg hpks]
      exact ⟨pks, rfl, hsel⟩
  · rw [alligner, allignerWith_tier1 hne hint _ _]
    exact ⟨_, rfl, sel_replicate (interAll_forall_mem hne0 (pyMax_mem hint))⟩

/-! ### Claim theorems: the peak aligner -/

/-- C1: for every list of non-empty peak lists whose common intersection is
empty, when the tier-2 best-first search pops a complete assignment within
its trial budget, `alligner` returns exactly that assignment; the assignment
selects one peak from each member's list (in order) and its total pairwise
absolute difference is minimal over all one-peak-per-member selections — the
brute-force minimum, for any number of members (in particular ≤ 5). -/
theorem C1_tier2_minimal (aoa : List (List Int)) (s : List Int)
    (hne : ∀ l ∈ aoa, l ≠ []) (hint : interAll aoa = [])
    (hsp : shortest_path aoa = .ok (some s)) :
    alligner aoa = .ok (some s) ∧ Sel aoa s ∧
      ∀ t, Sel aoa t → minimize s ≤ minimize t := by
  have hsound := shortest_path_sound hsp
  have hne0 : aoa ≠ [] := by
    intro h0
    subst h0
    rw [shortest_path] at hsp
    cases hf : (5000 - 1 : Nat) with
    | zero => simp at hf
    | succ f => rw [hf] at hsp; simp [spLoop, initFrontier] at hsp
  have hs : s ≠ [] := by
    intro h0
    subst h0
    have h0 : aoa.length = 0 := by simpa using hsound.1.length_eq.symm
    exact hne0 (List.length_eq_zero.mp h0)
  refine ⟨?_, hsound.1, hsound.2⟩
  rw [alligner_tier23 hne hne0 hint, hsp]
  dsimp only
  rw [if_neg hs]

/-- C1 witness: the spec's own example — `[[4], [5]]` yields `[4, 5]`,
whose cost is `1`. -/
theorem C1_witness :
    alligner [[4], [5]] = .ok (some [4, 5]) ∧ minimize [4, 5] = 1 := by
  refine ⟨(C1_tier2_minimal [[4], [5]] [4, 5] ?_ ?_ ?_).1, by decide⟩
  · decide
  · rfl
  · rfl

/-- C2: when the common intersection of the (non-empty) peak lists is
non-empty, `alligner` assigns every member the maximum element of the
intersection, and neither the tier-2 search nor the tier-3 fallback is ever
invoked: the result is the same for arbitrary tier-2/3 procedures. -/
theorem C2_tier1_intersection (aoa : List (List Int))
    (hne0 : aoa ≠ []) (hne : ∀ l ∈ aoa, l ≠ [])
    (hx : ∃ x : Int, ∀ l ∈ aoa, x ∈ l) :
    ∃ m : Int, (∀ l ∈ aoa, m ∈ l) ∧ (∀ x : Int, (∀ l ∈ aoa, x ∈ l) → x ≤ m) ∧
      ∀ (sp : List (List Int) → Except Unit (Option (List Int)))
        (md : List (List Int) → Option (List Int)),
        allignerWith sp md aoa = .ok (some (List.replicate aoa.length m)) := by
  have hmem : ∀ y : Int, (∀ l ∈ aoa, y ∈ l) → y ∈ interAll aoa := by
    intro y hy
    cases aoa with
    | nil => exact absurd rfl hne0
    | cons a rest =>
      exact interAll_mem.mpr ⟨hy a (List.mem_cons_self _ _),
        fun l hl => hy l (List.mem_cons_of_mem _ hl)⟩
  obtain ⟨x, hxall⟩ := hx
  have hint : interAll aoa ≠ [] := List.ne_nil_of_mem (hmem x hxall)
  refine ⟨pyMax (interAll aoa), interAll_forall_mem hne0 (pyMax_mem hint), ?_, ?_⟩
  · intro y hy
    exact le_pyMax (hmem y hy)
  · intro sp md
    exact allignerWith_tier1 hne hint sp md

/-- C2 witness: `[[1, 3], [3]]` has intersection `{3}`; every member is
assigned `3` whatever tier-2/3 procedures are plugged in — in particular by
`alligner` itself. -/
theorem C2_witness : alligner [[1, 3], [3]] = .ok (some [3, 3]) := by
  obtain ⟨m, hm, _, hall⟩ := C2_tier1_intersection [[1, 3], [3]]
    (by decide) (by decide) ⟨3, by decide⟩
  have hm3 : m = 3 := by
    have := hm [3] (by decide)
    simpa using this
  subst hm3
  exact hall (fun l => shortest_path l) min_sd

/-- C3: on non-empty peak lists, `shortest_path` at the default budget of
5000 trials performs at most 5000 frontier expansions and terminates without
raising: it returns a complete assignment (one peak per member) when one is
popped within budget, and `None` otherwise, in which case `alligner` falls
through deterministically to the tier-3 fallback `min_sd`. -/
theorem C3_budget_fallback (aoa : List (List Int))
    (hne0 : aoa ≠ []) (hne : ∀ l ∈ aoa, l ≠ []) :
    (∃ r, shortest_path aoa = .ok r) ∧
    (spLoopC aoa (5000 - 1) (initFrontier aoa)).2 ≤ 5000 ∧
    (∀ s, shortest_path aoa = .ok (some s) → s.length = aoa.length) ∧
    (interAll aoa = [] → shortest_path aoa = .ok none →
      alligner aoa = .ok (min_sd aoa)) := by
  refine ⟨shortest_path_ok hne0 hne 5000, ?_, ?_, ?_⟩
  · exact le_trans (spLoopC_le _ _ _) (by norm_num)
  · intro s hs
    exact ((shortest_path_sound hs).1).length_eq
  · intro hint hnone
    rw [alligner_tier23 hne hne0 hint, hnone]

/-- C3 witness: the statement instantiated at `[[1], [2]]`. -/
theorem C3_witness :
    (∃ r, shortest_path [[1], [2]] = .ok r) ∧
    (spLoopC [[1], [2]] (5000 - 1) (initFrontier [[1], [2]])).2 ≤ 5000 ∧
    (∀ s, shortest_path [[1], [2]] = .ok (some s) → s.length = 2) ∧
    (interAll [[1], [2]] = [] → shortest_path [[1], [2]] = .ok none →
      alligner [[1], [2]] = .ok (min_sd [[1], [2]])) :=
  C3_budget_fallback [[1], [2]] (by decide) (by decide)

/-- C10: whenever `alligner` returns a non-null result on a list of
non-empty peak lists, the result has exactly one value per input member, in
input order, and each returned value is an element of the corresponding
member's own peak list — whichever of the three tiers produced it. -/
theorem C10_alligner_selection (aoa : List (List Int)) (res : List Int)
    (hne : ∀ l ∈ aoa, l ≠ []) (h : alligner aoa = .ok (some res)) :
    res.length = aoa.length ∧
      ∀ (i : Nat) (x : Int) (l : List Int),
        res[i]? = some x → aoa[i]? = some l → x ∈ l := by
  have hsel := alligner_sel hne h
  exact ⟨hsel.length_eq, fun i x l hx hl => forall₂_getElem? hsel hx hl⟩

/-- C10 witness: the statement instantiated at `[[1, 4], [2]]`, where tier 2
returns `[1, 2]`. -/
theorem C10_witness :
    [1, 2].length = [[1, 4], [2]].length ∧
      ∀ (i : Nat) (x : Int) (l : List Int),
        [1, 2][i]? = some x → [[1, 4], [2]][i]? = some l → x ∈ l :=
  C10_alligner_selection [[1, 4], [2]] [1, 2] (by decide) (by rfl)

/-! ### Claim theorems: complex validation and lifecycle -/

/-- C7: when every member's detected peak set is empty, `align_peaks` returns
`None` (`.ok none`: absorbed silently, no exception) and `gen_feat` emits no
feature row and no peak rows, whatever the feature production is. -/
theorem C7_all_peakless (members : List ProteinProfile)
    (h : ∀ m ∈ members, m.peaks = []) (ρ : Type)
    (featFn : List ProteinProfile → List (String × Int) → ρ) :
    align_peaks members = .ok none ∧ gen_feat featFn members = .ok none := by
  have hfe : members.filter (fun p => p.peaks.isEmpty) = members :=
    List.filter_eq_self.mpr (fun m hm => by simp [h m hm])
  have halign : align_peaks members = .ok none := by
    simp only [align_peaks, hfe]
    rw [if_pos trivial]
  refine ⟨halign, ?_⟩
  rw [gen_feat, gen_featWith]
  cases ht : test_complex members
  · rw [if_neg (by simp [ht])]
  · rw [if_pos (by simp [ht]), halign]

/-- C7 witness: a two-member complex with no detected peaks produces no
output and `align_peaks` returns `None`. -/
theorem C7_witness :
    align_peaks [⟨"A", [0], []⟩, ⟨"B", [0], []⟩] = .ok none ∧
    gen_feat (fun _ _ => ()) [⟨"A", [0], []⟩, ⟨"B", [0], []⟩] = .ok none :=
  C7_all_peakless _ (by decide) Unit _

/-- C8: a complex with fewer than 2 or more than 100 members fails
`test_complex` and is rejected by `gen_feat` before any alignment:
`gen_featWith` returns no rows for an arbitrary alignment procedure (so
`align_peaks` is never invoked) and arbitrary feature production. -/
theorem C8_size_rejected (members : List ProteinProfile)
    (h : members.length < 2 ∨ 100 < members.length) (ρ : Type)
    (alignFn : List ProteinProfile → Except Unit (Option (List (String × Int))))
    (featFn : List ProteinProfile → List (String × Int) → ρ) :
    test_complex members = false ∧ gen_featWith alignFn featFn members = .ok none := by
  have hcond : (members.length < 2 || 100 < members.length) = true := by
    rcases h with h | h <;> simp [h]
  have ht : test_complex members = false := by
    rw [test_complex, if_pos hcond]
  exact ⟨ht, by simp [gen_featWith, ht]⟩

/-- C8 witness: the statement at a 1-member and at a 101-member complex,
with the real `align_peaks` plugged in as the (never invoked) aligner. -/
theorem C8_witness :
    (test_complex [⟨"A", [], []⟩] = false ∧
      gen_featWith align_peaks (fun _ _ => ()) [⟨"A", [], []⟩] = .ok none) ∧
    (test_complex (List.replicate 101 ⟨"A", [], []⟩) = false ∧
      gen_featWith align_peaks (fun _ _ => ())
        (List.replicate 101 ⟨"A", [], []⟩) = .ok none) :=
  ⟨C8_size_rejected _ (Or.inl (by decide)) Unit align_peaks _,
   C8_size_rejected _ (Or.inr (by simp)) Unit align_peaks _⟩

/-! ### Claim theorems: peak storage (C9) -/

/-- C9 counterexample: the claim says the profile stores detected peaks as a
plain set in which duplicates collapse; but `calc_peaks` stores a plain list
— the duplicated detector output `[3, 3]` is stored as `[3, 3]`, which has
duplicates. -/
theorem C9_cx : calc_peaks [3, 3] = [3, 3] ∧ ¬ (calc_peaks [3, 3]).Nodup := by
  constructor
  · norm_num [calc_peaks, pyInt]
  · intro hd
    have : calc_peaks [3, 3] = [3, 3] := by norm_num [calc_peaks, pyInt]
    rw [this] at hd
    simp at hd

/-- C9 amended: `calc_peaks` stores the detector output as a plain list of
ints (each float truncated toward zero by `int(x)`), preserving order and
multiplicity — duplicates do not collapse; only later consumers (tier 1 of
`alligner`) form sets. -/
theorem C9_stored_as_list (detected : List ℚ) :
    calc_peaks detected = detected.map pyInt ∧
    (calc_peaks detected).length = detected.length ∧
    ∀ i : Nat, (calc_peaks detected)[i]? = (detected[i]?).map pyInt := by
  refine ⟨rfl, by simp [calc_peaks], ?_⟩
  intro i
  simp [calc_peaks]

/-! ### Claim theorems: windowed correlation length (C5) -/

theorem uniform_filter_length (a : List ℚ) (W : Nat) :
    (uniform_filter a W).length = a.length := by
  simp only [uniform_filter]
  rw [List.length_map, List.length_range]

/-- The output of `calc_corr` is the valid part (one entry per position of
the sliced running mean) followed by the 9 appended NaN sentinels. -/
theorem calc_corr_length (a b : List ℚ) (W : Nat) :
    (calc_corr a b W).length =
      (pySlice (uniform_filter a W) ((W / 2 : Nat) : Int)
        ((-(W : Int)).fdiv 2 + 1)).length + 9 := by
  simp [calc_corr]

/-- C5 counterexample: the claim says the vector has total length 72 for
every window length `W`; at `W = 12` (vectors of length `F = 72`) the total
length is 70, not 72. -/
theorem C5_cx :
    (calc_corr (List.replicate 72 0) (List.replicate 72 0) 12).length = 70 ∧
    (calc_corr (List.replicate 72 0) (List.replicate 72 0) 12).length ≠ 72 := by
  have h : (calc_corr (List.replicate 72 0) (List.replicate 72 0) 12).length = 70 := by
    decide
  exact ⟨h, by omega⟩

/-- C5 amended: for the default window length `W = 10` (the only one the
code uses) and member vectors of length `F = 72`, the windowed-correlation
vector has total length exactly 72: 63 valid (non-sentinel) windowed values
followed by exactly 9 NaN sentinels at the tail; for other `W` the total
length differs (see the counterexample at `W = 12`). -/
theorem C5_default_length (a b : List ℚ) (ha : a.length = 72) (hb : b.length = 72) :
    (calc_corr a b 10).length = 72 ∧
    (∀ e ∈ (calc_corr a b 10).take 63, e ≠ none) ∧
    (calc_corr a b 10).drop 63 = List.replicate 9 none := by
  have hn : (uniform_filter a 10).length = 72 := by rw [uniform_filter_length, ha]
  have hstop : ((-((10 : Nat) : Int)).fdiv 2 + 1) = -4 := by decide
  have hamc : (pySlice (uniform_filter a 10) ((10 / 2 : Nat) : Int)
      ((-((10 : Nat) : Int)).fdiv 2 + 1)).length = 63 := by
    rw [hstop]
    simp only [pySlice]
    norm_num [hn]
    decide
  constructor
  · rw [calc_corr_length, hamc]
  · rw [calc_corr]
    simp only []
    rw [hamc]
    constructor
    · intro e he
      rw [List.take_left' (by simp)] at he
      obtain ⟨j, _, rfl⟩ := List.mem_map.mp he
      simp
    · rw [List.drop_left' (by simp)]

/-- C5 witness: the amended statement at two concrete length-72 vectors. -/
theorem C5_witness :
    (calc_corr (List.replicate 72 0) (List.replicate 72 0) 10).length = 72 ∧
    (∀ e ∈ (calc_corr (List.replicate 72 0) (List.replicate 72 0) 10).take 63,
      e ≠ none) ∧
    (calc_corr (List.replicate 72 0) (List.replicate 72 0) 10).drop 63 =
      List.replicate 9 none :=
  C5_default_length _ _ (by simp) (by simp)

/-! ### Claim theorems: peak width window (C6) -/

/-- The Python slice `l[(p-5):(p+5)]` agrees with the centred window for
`p ≥ 5` (no negative start, hence no wrap-around). -/
theorem pySlice_window_eq {α : Type} (l : List α) (p : Int) (hp : 5 ≤ p) :
    pySlice l (p - 5) (p + 5) = (l.take (p + 5).toNat).drop (p - 5).toNat := by
  rw [pySlice]
  rw [if_neg (by omega : ¬ p - 5 < 0), if_neg (by omega : ¬ p + 5 < 0)]
  have h1 : ((l.length : Int)).toNat = l.length := Int.toNat_natCast _
  have htake : l.take (min (p + 5) ((l.length : Int))).toNat = l.take (p + 5).toNat := by
    rcases le_total (p + 5) ((l.length : Int)) with h | h
    · rw [min_eq_left h]
    · rw [min_eq_right h, h1, List.take_length]
      exact (List.take_of_length_le (by omega)).symm
  rw [htake]
  rcases le_total (p - 5) ((l.length : Int)) with h | h
  · rw [min_eq_left h]
  · rw [min_eq_right h, h1]
    rw [List.drop_eq_nil_of_le (by simp [List.length_take]),
      List.drop_eq_nil_of_le (by simp only [List.length_take]; omega)]

/-- C6 counterexample: for a consensus peak smaller than 5 (here 2) the
Python slice `inten[(peak-5):(peak+5)]` has a negative start, which counts
from the end of the vector and yields the empty window rather than the
centred window `[peak-5, peak+5)`: with the FWHM collaborator instantiated
to `length`, the code computes width 0 while the claimed centred-window
width is 7. -/
theorem C6_cx :
    calc_width (fun l => (l.length : ℚ)) (fun _ => 2)
        [⟨"A", List.replicate 72 0, []⟩] = 0 ∧
    spec_calc_width (fun l => (l.length : ℚ)) (fun _ => 2)
        [⟨"A", List.replicate 72 0, []⟩] = 7 ∧
    calc_width (fun l => (l.length : ℚ)) (fun _ => 2)
        [⟨"A", List.replicate 72 0, []⟩] ≠
      spec_calc_width (fun l => (l.length : ℚ)) (fun _ => 2)
        [⟨"A", List.replicate 72 0, []⟩] := by
  have h1 : calc_width (fun l => (l.length : ℚ)) (fun _ => 2)
      [⟨"A", List.replicate 72 0, []⟩] = 0 := by
    norm_num [calc_width, pySlice]
  have h2 : spec_calc_width (fun l => (l.length : ℚ)) (fun _ => 2)
      [⟨"A", List.replicate 72 0, []⟩] = 7 := by
    norm_num [spec_calc_width, centerWindow, show ((-3 : Int).toNat) = 0 from rfl,
      show ((7 : Int).toNat) = 7 from rfl]
  refine ⟨h1, h2, ?_⟩
  rw [h1, h2]
  norm_num

/-- C6 amended: `calc_width` equals the mean over members of the FWHM of the
member's intensity restricted to the centred window `[peak-5, peak+5)` for
every complex whose consensus peaks are all ≥ 5 (for a peak < 5 the slice
start is negative and Python wraps it to the end of the vector instead). -/
theorem C6_width_window (fw : List ℚ → ℚ) (pksAli : String → Int)
    (members : List ProteinProfile) (h : ∀ m ∈ members, 5 ≤ pksAli m.acc) :
    calc_width fw pksAli members = spec_calc_width fw pksAli members := by
  rw [calc_width, spec_calc_width]
  have hmap : members.map (fun prot =>
      fw (pySlice prot.inten (pksAli prot.acc - 5) (pksAli prot.acc + 5))) =
      members.map (fun prot => fw (centerWindow prot.inten (pksAli prot.acc))) := by
    apply List.map_congr_left
    intro m hm
    rw [pySlice_window_eq _ _ (h m hm)]
    rfl
  rw [hmap]

/-- C6 witness: the amended statement at a one-member complex with peak 5. -/
theorem C6_witness :
    calc_width (fun l => (l.length : ℚ)) (fun _ => 5)
        [⟨"A", List.replicate 72 0, []⟩] =
      spec_calc_width (fun l => (l.length : ℚ)) (fun _ => 5)
        [⟨"A", List.replicate 72 0, []⟩] :=
  C6_width_window _ _ _ (by decide)

/-! ### The consensus mapping built by `align_peaks` (C4) -/

/-- The members that have at least one detected peak, in input order. -/
def presMembers (members : List ProteinProfile) : List ProteinProfile :=
  members.filter (fun m => ¬ m.peaks.isEmpty)

/-- Their peak lists — the `pres` list `align_peaks` hands to `alligner`. -/
def presPeaks (members : List ProteinProfile) : List (List Int) :=
  (members.map (·.peaks)).filter (fun l => ¬ l.isEmpty)

theorem filter_map_comm {α β : Type} (f : α → β) (p : β → Bool) :
    ∀ l : List α, (l.map f).filter p = (l.filter (fun a => p (f a))).map f := by
  intro l
  induction l with
  | nil => rfl
  | cons x xs ih =>
    simp only [List.map_cons, List.filter_cons]
    by_cases h : p (f x) <;> simp [h, ih]

theorem presPeaks_eq (members : List ProteinProfile) :
    presPeaks members = (presMembers members).map (·.peaks) := by
  rw [presPeaks, presMembers, filter_map_comm]

theorem presPeaks_ne_nil (members : List ProteinProfile) :
    ∀ l ∈ presPeaks members, l ≠ [] := by
  intro l hl
  have := (List.mem_filter.mp hl).2
  simpa using this

/-- With unique accessions, an accession lands among the peakless
(`nan_members`) exactly when its member has no peaks. -/
theorem acc_mem_nan_iff {members : List ProteinProfile}
    (hnd : (members.map (fun x => x.acc)).Nodup) {m : ProteinProfile}
    (hm : m ∈ members) :
    m.acc ∈ (members.filter (fun p => p.peaks.isEmpty)).map (fun x => x.acc) ↔
      m.peaks.isEmpty = true := by
  constructor
  · intro hin
    obtain ⟨m', hm', hacc⟩ := List.mem_map.mp hin
    obtain ⟨hm'mem, hm'p⟩ := List.mem_filter.mp hm'
    have := List.inj_on_of_nodup_map hnd hm'mem hm hacc
    rw [← this]
    exact hm'p
  · intro hp
    exact List.mem_map_of_mem _ (List.mem_filter.mpr ⟨hm, hp⟩)

/-- With unique accessions, `mb_pres` is exactly the accession list of the
members that do have peaks, in order. -/
theorem mb_pres_eq {members : List ProteinProfile}
    (hnd : (members.map (fun x => x.acc)).Nodup) :
    (members.map (fun x => x.acc)).filter
        (fun a => ¬ ((members.filter (fun p => p.peaks.isEmpty)).map
          (fun x => x.acc)).contains a) =
      (presMembers members).map (fun x => x.acc) := by
  rw [filter_map_comm, presMembers]
  congr 1
  apply List.filter_congr
  intro m hm
  simp only [decide_eq_decide]
  rw [not_iff_not]
  simpa using acc_mem_nan_iff hnd hm

theorem lookup_map_const_of_mem {md : Int} :
    ∀ (ks : List String) (k : String), k ∈ ks →
      List.lookup k (ks.map (fun a => (a, md))) = some md := by
  intro ks
  induction ks with
  | nil => intro k hk; simp at hk
  | cons a as ih =>
    intro k hk
    rcases List.mem_cons.mp hk with rfl | hk'
    · simp [List.lookup]
    · by_cases hak : k = a
      · subst hak; simp [List.lookup]
      · have hbeq : (k == a) = false := by simp [hak]
        simp only [List.map_cons, List.lookup, hbeq]
        exact ih k hk'

theorem lookup_map_const_of_not_mem {md : Int} :
    ∀ (ks : List String) (k : String), k ∉ ks →
      List.lookup k (ks.map (fun a => (a, md))) = none := by
  intro ks
  induction ks with
  | nil => intro k _; rfl
  | cons a as ih =>
    intro k hk
    have hka : ¬ k = a := fun he => hk (he ▸ List.mem_cons_self _ _)
    have hbeq : (k == a) = false := by simp [hka]
    simp only [List.map_cons, List.lookup, hbeq]
    exact ih k (fun hin => hk (List.mem_cons_of_mem _ hin))

theorem lookup_append_some {β : Type} {l₁ : List (String × β)} (l₂ : List (String × β))
    {k : String} {v : β} (h : List.lookup k l₁ = some v) :
    List.lookup k (l₁ ++ l₂) = some v := by
  induction l₁ with
  | nil => simp [List.lookup] at h
  | cons p ps ih =>
    obtain ⟨a, b⟩ := p
    simp only [List.lookup, List.cons_append] at h ⊢
    by_cases hka : (k == a) = true
    · rw [hka] at h ⊢; exact h
    · rw [Bool.not_eq_true] at hka
      rw [hka] at h ⊢
      exact ih h

theorem lookup_append_none {β : Type} {l₁ : List (String × β)} (l₂ : List (String × β))
    {k : String} (h : List.lookup k l₁ = none) :
    List.lookup k (l₁ ++ l₂) = List.lookup k l₂ := by
  induction l₁ with
  | nil => rfl
  | cons p ps ih =>
    obtain ⟨a, b⟩ := p
    simp only [List.lookup, List.cons_append] at h ⊢
    by_cases hka : (k == a) = true
    · rw [hka] at h; exact absurd h (by simp)
    · rw [Bool.not_eq_true] at hka
      rw [hka] at h ⊢
      exact ih h

theorem lookup_zip_getElem {β : Type} :
    ∀ (ks : List String) (vs : List β), ks.Nodup →
      ∀ (i : Nat) (k : String) (v : β), ks[i]? = some k → vs[i]? = some v →
        List.lookup k (ks.zip vs) = some v := by
  intro ks
  induction ks with
  | nil => intro vs _ i k v hk _; simp at hk
  | cons k0 ks' ih =>
    intro vs hnd i k v hk hv
    cases vs with
    | nil => simp at hv
    | cons v0 vs' =>
      cases i with
      | zero =>
        simp only [List.getElem?_cons_zero, Option.some.injEq] at hk hv
        subst hk; subst hv
        simp [List.zip_cons_cons, List.lookup]
      | succ j =>
        simp only [List.getElem?_cons_succ] at hk hv
        have hkmem : k ∈ ks' := by
          obtain ⟨hlt, he⟩ := List.getElem?_eq_some.mp hk
          rw [← he]
          exact List.getElem_mem hlt
        have hk0 : ¬ k = k0 := by
          intro he
          subst he
          exact (List.nodup_cons.mp hnd).1 hkmem
        have hbeq : (k == k0) = false := by simp [hk0]
        simp only [List.zip_cons_cons, List.lookup, hbeq]
        exact ih vs' (List.nodup_cons.mp hnd).2 j k v hk hv

/-- C4: after `align_peaks` succeeds on a complex with unique member
accessions (as `format_hash` builds them), the consensus mapping `pks_ali`
has exactly one entry per member; every member that has peaks maps, in
order, to its aligned peak from `alligner`'s output over the present peak
lists, and every peakless member maps to the rounded median of the aligned
peaks (so all peakless members receive the same imputed value). -/
theorem C4_consensus_mapping (members : List ProteinProfile)
    (pa : List (String × Int)) (hnd : (members.map (fun x => x.acc)).Nodup)
    (h : align_peaks members = .ok (some pa)) :
    pa.length = members.length ∧
    ∃ ali : List Int,
      alligner (presPeaks members) = .ok (some ali) ∧
      (∀ m ∈ members, m.peaks = [] →
        List.lookup m.acc pa = some (pyRound (medi ali))) ∧
      List.Forall₂ (fun (m : ProteinProfile) (v : Int) =>
        List.lookup m.acc pa = some v) (presMembers members) ali := by
  simp only [align_peaks] at h
  split at h
  · exact absurd h (by simp)
  · split at h
    · exact absurd h (by simp)
    · exact absurd h (by simp)
    · rename_i ali halli
      simp only [Except.ok.injEq, Option.some.injEq] at h
      subst h
      have halli' : alligner (presPeaks members) = .ok (some ali) := by
        rw [presPeaks]; exact halli
      have hsel : Sel (presPeaks members) ali :=
        alligner_sel (presPeaks_ne_nil members) halli'
      have hlen_ali : ali.length = (presMembers members).length := by
        have := hsel.length_eq
        rwa [presPeaks_eq, List.length_map] at this
      have hmb := mb_pres_eq hnd
      have hpresM : members.filter (fun p => ! p.peaks.isEmpty) = presMembers members := by
        rw [presMembers]
        apply List.filter_congr
        intro m _
        cases hmp : m.peaks.isEmpty <;> simp [hmp]
      constructor
      · simp only [List.length_append, List.length_zip, List.length_map, hmb,
          hlen_ali, min_self]
        have hsplit := List.length_eq_length_filter_add
          (l := members) (fun p => p.peaks.isEmpty)
        rw [hpresM] at hsplit
        omega
      · refine ⟨ali, halli', ?_, ?_⟩
        · intro m hm hmp
          have hisE : m.peaks.isEmpty = true := by simp [hmp]
          have hmem : m.acc ∈ (members.filter
              (fun p => p.peaks.isEmpty)).map (fun x => x.acc) :=
            (acc_mem_nan_iff hnd hm).mpr hisE
          exact lookup_append_some _ (lookup_map_const_of_mem _ _ hmem)
        · rw [List.forall₂_iff_get]
          refine ⟨hlen_ali.symm, ?_⟩
          intro i h1 h2
          set m := (presMembers members).get ⟨i, h1⟩ with hm_def
          have hm_mem : m ∈ presMembers members := by
            rw [hm_def]
            exact List.get_mem _ _ _
          obtain ⟨hm_members, hm_pres⟩ := List.mem_filter.mp hm_mem
          have hnot_nan : m.acc ∉ (members.filter
              (fun p => p.peaks.isEmpty)).map (fun x => x.acc) := by
            intro hin
            have := (acc_mem_nan_iff hnd hm_members).mp hin
            simp [this] at hm_pres
          rw [lookup_append_none _ (lookup_map_const_of_not_mem _ _ hnot_nan)]
          rw [hmb]
          have hndp : ((presMembers members).map (fun x => x.acc)).Nodup := by
            refine List.Nodup.sublist ?_ hnd
            exact List.Sublist.map _ (List.filter_sublist members)
          refine lookup_zip_getElem _ _ hndp i m.acc (ali.get ⟨i, h2⟩) ?_ ?_
          · rw [List.getElem?_map]
            rw [List.getElem?_eq_getElem h1]
            rfl
          · exact List.getElem?_eq_getElem h2

/-- C4 witness: a two-member complex where `"A"` has peak 3 and `"B"` has
none: the mapping has one entry per member, `"A"` keeps its aligned peak 3
and `"B"` receives the rounded median of the aligned peaks. -/
theorem C4_witness :
    [("B", pyRound (medi [3])), ("A", 3)].length = 2 ∧
    ∃ ali : List Int,
      alligner (presPeaks [⟨"A", [0], [3]⟩, ⟨"B", [0], []⟩]) = .ok (some ali) ∧
      (∀ m ∈ [(⟨"A", [0], [3]⟩ : ProteinProfile), ⟨"B", [0], []⟩], m.peaks = [] →
        List.lookup m.acc [("B", pyRound (medi [3])), ("A", 3)] =
          some (pyRound (medi ali))) ∧
      List.Forall₂ (fun (m : ProteinProfile) (v : Int) =>
        List.lookup m.acc [("B", pyRound (medi [3])), ("A", 3)] = some v)
        (presMembers [⟨"A", [0], [3]⟩, ⟨"B", [0], []⟩]) ali :=
  C4_consensus_mapping [⟨"A", [0], [3]⟩, ⟨"B", [0], []⟩]
    [("B", pyRound (medi [3])), ("A", 3)] (by decide) (by rfl)

end PCP
